import Mathlib

/-!
Verification of the TANHFP32 Verilator test harness
(`sim-verilator/TANHFP32.cpp`): the ULP-distance checker `compute_ulp`,
the relative-error / pass-fail statistics aggregation of
`test_random_cases`, and the streaming valid/ready drive loop.

Machine integers are modelled as `Nat` (32-bit patterns are `Nat`s below
`2 ^ 32`); IEEE-754 doubles are modelled by `DVal` (NaN, signed
infinities, and exact finite values as rationals — the finite arithmetic
appearing in the harness is exact at the points the theorems evaluate it,
so no rounding is modelled).
-/

namespace TanhSim

/-! ### Bit-level view of IEEE-754 binary32 patterns -/

/-- Sign bit of a 32-bit pattern (bit 31). -/
def signBit (u : Nat) : Nat := u / 2 ^ 31 % 2

/-- Exponent field of a 32-bit pattern (bits 23..30). -/
def expField (u : Nat) : Nat := u / 2 ^ 23 % 2 ^ 8

/-- Fraction field of a 32-bit pattern (bits 0..22). -/
def fracField (u : Nat) : Nat := u % 2 ^ 23

/-- Magnitude bits of a 32-bit pattern: the pattern with the sign bit
masked off (`u & 0x7FFFFFFF`). -/
def mag (u : Nat) : Nat := u % 2 ^ 31

/-- `std::isnan` on the bit pattern: exponent all ones, fraction nonzero. -/
def isNanB (u : Nat) : Bool := expField u == 255 && fracField u != 0

/-- `std::isinf` on the bit pattern: exponent all ones, fraction zero. -/
def isInfB (u : Nat) : Bool := expField u == 255 && fracField u == 0

/-- IEEE value equality `g.f == h.f` on binary32 patterns: false when either
operand is NaN, and otherwise true exactly for identical patterns or for
the two zeros (`+0.0 == -0.0`). -/
def floatEqB (g h : Nat) : Bool :=
  !isNanB g && !isNanB h && (g == h || (mag g == 0 && mag h == 0))

/-- `compute_ulp` from `TANHFP32.cpp`: both NaN → 0; both infinite with the
same sign bit → 0; equal IEEE values → 0; differing sign bits → sum of the
two magnitude bit patterns; otherwise absolute difference of the raw
patterns.  The C code computes in `uint64_t`; the sums involved never
reach `2 ^ 64`, so plain `Nat` arithmetic agrees with it. -/
def compute_ulp (g h : Nat) : Nat :=
  if isNanB g && isNanB h then 0
  else if isInfB g && isInfB h && (signBit g == signBit h) then 0
  else if floatEqB g h then 0
  else if signBit g != signBit h then mag g + mag h
  else if g > h then g - h else h - g

/-! ### IEEE-754 double values, as used by the error computation

`test_random_cases` widens the two binary32 values to `double` and
computes `fabs((h - g) / ((g == 0.0 || h == 0.0) ? 1.0 : g))`.  The
values reaching that expression are binary32 values widened exactly, and
the model keeps finite values as exact rationals. -/

/-- A double value: NaN, a signed infinity (`true` = negative), or a
finite value. -/
inductive DVal : Type where
  | nan : DVal
  | inf : Bool → DVal
  | fin : ℚ → DVal
deriving DecidableEq

/-- `std::isnan` on a double value. -/
def DVal.isNan : DVal → Bool
  | .nan => true
  | _ => false

/-- `std::isinf` on a double value. -/
def DVal.isInf : DVal → Bool
  | .inf _ => true
  | _ => false

/-- IEEE subtraction on double values (finite arithmetic exact). -/
def dSub : DVal → DVal → DVal
  | .nan, _ => .nan
  | _, .nan => .nan
  | .inf s, .inf t => if s = t then .nan else .inf s
  | .inf s, .fin _ => .inf s
  | .fin _, .inf t => .inf (!t)
  | .fin a, .fin b => .fin (a - b)

/-- IEEE addition on double values (finite arithmetic exact). -/
def dAdd : DVal → DVal → DVal
  | .nan, _ => .nan
  | _, .nan => .nan
  | .inf s, .inf t => if s = t then .inf s else .nan
  | .inf s, .fin _ => .inf s
  | .fin _, .inf t => .inf t
  | .fin a, .fin b => .fin (a + b)

/-- IEEE division on double values (finite arithmetic exact; the zeros
are unsigned here, which the harness never distinguishes: every division
result it uses passes through `fabs`). -/
def dDiv : DVal → DVal → DVal
  | .nan, _ => .nan
  | _, .nan => .nan
  | .inf _, .inf _ => .nan
  | .inf s, .fin b => .inf (xor s (decide (b < 0)))
  | .fin _, .inf _ => .fin 0
  | .fin a, .fin b =>
      if b = 0 then (if a = 0 then .nan else .inf (decide (a < 0)))
      else .fin (a / b)

/-- `fabs` on double values. -/
def dFabs : DVal → DVal
  | .nan => .nan
  | .inf _ => .inf false
  | .fin a => .fin |a|

/-- IEEE `<` on double values: any comparison with NaN is false. -/
def dLt : DVal → DVal → Bool
  | .nan, _ => false
  | _, .nan => false
  | .inf s, .inf t => s && !t
  | .inf s, .fin _ => s
  | .fin _, .inf t => !t
  | .fin a, .fin b => decide (a < b)

/-- IEEE `==` on double values: NaN equals nothing, `+0.0 == -0.0`. -/
def dEq : DVal → DVal → Bool
  | .nan, _ => false
  | _, .nan => false
  | .inf s, .inf t => s == t
  | .inf _, .fin _ => false
  | .fin _, .inf _ => false
  | .fin a, .fin b => a == b

/-- Decoding of a binary32 pattern to its (exactly widened) double value:
exponent all ones gives NaN or a signed infinity; a zero exponent is
subnormal with scale `2 ^ (-149)`; otherwise the significand carries the
hidden bit and the scale is `2 ^ (expField - 150)`.  Powers are kept in
`Nat` and divided by `2 ^ 150` so the definition is a plain rational. -/
def bitsToVal (u : Nat) : DVal :=
  if isNanB u then .nan
  else if isInfB u then .inf (signBit u == 1)
  else
    let m : ℚ :=
      if expField u == 0 then (fracField u : ℚ) * 2
      else ((2 ^ 23 + fracField u : Nat) : ℚ) * 2 ^ expField u
    let v : ℚ := m / 2 ^ 150
    .fin (if signBit u == 1 then -v else v)

/-- The relative error computed per sample in `test_random_cases`
(lines 173–180): zero when both are NaN or both are infinite, otherwise
`fabs((h - g) / ((g == 0.0 || h == 0.0) ? 1.0 : g))`. -/
def relError (g h : DVal) : DVal :=
  if g.isNan && h.isNan then .fin 0
  else if g.isInf && h.isInf then .fin 0
  else dFabs (dDiv (dSub h g) (if dEq g (.fin 0) || dEq h (.fin 0) then .fin 1 else g))

/-! ### Statistics aggregation (`test_random_cases`, lines 173–196) -/

/-- The running statistics of a test run: pass/fail counts, error sum and
maximum, ULP sum and maximum. -/
structure Stats : Type where
  pass : Nat
  fail : Nat
  total_err : DVal
  max_err : DVal
  total_ulp : Nat
  max_ulp : Nat
deriving DecidableEq

/-- The accumulator state at the start of a run. -/
def stats0 : Stats := ⟨0, 0, .fin 0, .fin 0, 0, 0⟩

/-- The error threshold `1e-4` of the pass test (modelled by its decimal
value). -/
def errThreshold : ℚ := 1 / 10000

/-- The pass test of one sample, following the branch structure of lines
173–187: both NaN passes, both infinite passes (sign disregarded), and
otherwise `err < 1e-4 && ulp <= 2`.  In the first two branches the code
sets `err = 0.0`, which is exactly `relError` of the pair, so using
`relError` here coincides with the code on every input. -/
def passB (gb hb : Nat) : Bool :=
  let g := bitsToVal gb
  let h := bitsToVal hb
  if g.isNan && h.isNan then true
  else if g.isInf && h.isInf then true
  else dLt (relError g h) (.fin errThreshold) && decide (compute_ulp gb hb ≤ 2)

/-- Processing of one (golden, hardware) sample, given by bit patterns:
classify pass/fail and update the running sums and maxima, exactly as the
body of the collection branch of `test_random_cases` does. -/
def stepStats (st : Stats) (gb hb : Nat) : Stats :=
  let ulp := compute_ulp gb hb
  let err := relError (bitsToVal gb) (bitsToVal hb)
  { pass := st.pass + (if passB gb hb then 1 else 0)
    fail := st.fail + (if passB gb hb then 0 else 1)
    total_err := dAdd st.total_err err
    max_err := if dLt st.max_err err then err else st.max_err
    total_ulp := st.total_ulp + ulp
    max_ulp := if st.max_ulp < ulp then ulp else st.max_ulp }

/-- Aggregation over a list of (golden, hardware) samples, in order. -/
def runStats (st : Stats) (samples : List (Nat × Nat)) : Stats :=
  samples.foldl (fun s p => stepStats s p.1 p.2) st

/-! ### The streaming handshake drive loop (`test_random_cases`, lines 141–198)

The unit under test is opaque (a Verilated model, not part of the
sources); it is embedded as an arbitrary deterministic machine observed
through its handshake signals.  The driver holds output `ready` high for
the whole run, so a machine step takes only the input-port signals. -/

/-- Modelled from the spec: the Verilated hardware unit (`VTANHFP32`) is
not among the sources; per the spec it is an opaque deterministic device
accessed only through its handshake ports.  It is embedded as a state
type `σ` with the input-port `ready` signal, a one-cycle step (arguments:
input `valid` and the input data bits; output `ready` is held high by the
driver for the whole run), and the output-port `valid` and data
signals. -/
structure UUT (σ : Type) : Type where
  ready : σ → Bool
  step : σ → Bool → Nat → σ
  valid : σ → Bool
  out : σ → Nat

/-- The driver-side state of the loop: the current machine state, the
`issued` counter, the value currently held on the input data lines, and
the list of collected outputs (`received` is its length). -/
structure DriveState (σ : Type) : Type where
  uut : σ
  issued : Nat
  bits : Nat
  outs : List Nat

/-- The driver state on entry to the loop: nothing issued, nothing
collected. -/
def dinit (s0 : σ) : DriveState σ := ⟨s0, 0, 0, []⟩

/-- The input `valid` the driver presents this cycle: asserted exactly
when inputs remain and the machine asserts input `ready`
(line 146: `if (issued < N && top->io_in_ready)`). -/
def inValid (M : UUT σ) (inputs : List Nat) (d : DriveState σ) : Bool :=
  decide (d.issued < inputs.length) && M.ready d.uut

/-- One iteration of the loop body: present the next input when `inValid`
(keeping the data lines otherwise), step the machine one cycle, and
collect the output value when the machine asserts output `valid`. -/
def driveStep (M : UUT σ) (inputs : List Nat) (d : DriveState σ) : DriveState σ :=
  let v := inValid M inputs d
  let b := if v then inputs.getD d.issued 0 else d.bits
  let s2 := M.step d.uut v b
  { uut := s2
    issued := if v then d.issued + 1 else d.issued
    bits := b
    outs := if M.valid s2 then d.outs ++ [M.out s2] else d.outs }

/-- The loop guard `while (received < N)` folded into one step: past the
exit condition the state freezes. -/
def loopIter (M : UUT σ) (inputs : List Nat) (d : DriveState σ) : DriveState σ :=
  if d.outs.length < inputs.length then driveStep M inputs d else d

/-- The state of the drive loop after `n` iterations from machine state
`s0`. -/
def dtrace (M : UUT σ) (inputs : List Nat) (s0 : σ) : Nat → DriveState σ
  | 0 => dinit s0
  | n + 1 => loopIter M inputs (dtrace M inputs s0 n)

/-! ### Concrete decodings used by several witnesses -/

/-- `0x00000000` decodes to `+0.0`. -/
theorem bitsToVal_pzero : bitsToVal 0 = .fin 0 := by
  simp [bitsToVal, isNanB, isInfB, expField, fracField, signBit]

/-- `0x80000000` decodes to `-0.0` (the value zero). -/
theorem bitsToVal_nzero : bitsToVal 0x80000000 = .fin 0 := by
  simp [bitsToVal, isNanB, isInfB, expField, fracField, signBit]

/-- `0x3F800000` decodes to `1.0`. -/
theorem bitsToVal_one : bitsToVal 0x3F800000 = .fin 1 := by
  simp [bitsToVal, isNanB, isInfB, expField, fracField, signBit]
  norm_num

/-- `0xBF800000` decodes to `-1.0`. -/
theorem bitsToVal_none : bitsToVal 0xBF800000 = .fin (-1) := by
  simp [bitsToVal, isNanB, isInfB, expField, fracField, signBit]
  norm_num

/-- `0xBF000000` decodes to `-0.5`. -/
theorem bitsToVal_nhalf : bitsToVal 0xBF000000 = .fin (-(1 / 2)) := by
  simp [bitsToVal, isNanB, isInfB, expField, fracField, signBit]
  norm_num

/-- `0x7FC00000` decodes to a NaN. -/
theorem bitsToVal_qnan : bitsToVal 0x7FC00000 = .nan := by
  simp [bitsToVal, isNanB, isInfB, expField, fracField, signBit]

/-! ### Claims about `compute_ulp` -/

/-- Claim C2, counterexample: the bit patterns `0x7FC00000` and
`0xFFC00000` are two NaNs whose sign bits differ and which are both
non-zero, yet `compute_ulp` returns `0`, not the (non-zero) sum of their
magnitude bit patterns. -/
theorem claim_C2_counterexample :
    signBit 0x7FC00000 ≠ signBit 0xFFC00000 ∧
    mag 0x7FC00000 ≠ 0 ∧ mag 0xFFC00000 ≠ 0 ∧
    compute_ulp 0x7FC00000 0xFFC00000 = 0 ∧
    mag 0x7FC00000 + mag 0xFFC00000 ≠ 0 := by decide

/-- Claim C2 (amended): for float32 patterns whose sign bits differ,
which are both non-zero, and which are not both NaN, `compute_ulp`
returns exactly the sum of the two magnitude bit patterns. -/
theorem claim_C2_amended (g h : Nat) (hg : g < 2 ^ 32) (hh : h < 2 ^ 32)
    (hs : signBit g ≠ signBit h) (hgz : mag g ≠ 0) (hhz : mag h ≠ 0)
    (hnn : ¬(isNanB g = true ∧ isNanB h = true)) :
    compute_ulp g h = mag g + mag h := by
  have hne : g ≠ h := fun e => hs (by rw [e])
  have hnanF : (isNanB g && isNanB h) = false := by
    cases ha : isNanB g <;> cases hb : isNanB h <;> simp_all
  have hsF : (signBit g == signBit h) = false := by simpa using hs
  have hinfF : (isInfB g && isInfB h && (signBit g == signBit h)) = false := by
    simp [hsF]
  have hgF : (g == h) = false := by simpa using hne
  have hmF : (mag g == 0) = false := by simpa using hgz
  have heqF : floatEqB g h = false := by simp [floatEqB, hgF, hmF]
  have hbne : (signBit g != signBit h) = true := by simpa using hs
  unfold compute_ulp
  rw [hnanF, hinfF, heqF, hbne]
  simp

/-- Claim C2, witness: the amended statement evaluated at `1.0` and
`-0.5`. -/
theorem claim_C2_witness :
    compute_ulp 0x3F800000 0xBF000000 = mag 0x3F800000 + mag 0xBF000000 :=
  claim_C2_amended 0x3F800000 0xBF000000 (by decide) (by decide) (by decide)
    (by decide) (by decide) (by decide)

/-- Claim C5: `compute_ulp` returns 0 for any pair of NaN patterns
(whatever their payloads and signs), 0 for two infinities of the same
sign, and a non-zero distance for two infinities of opposite sign. -/
theorem claim_C5 :
    (∀ g h : Nat, isNanB g = true → isNanB h = true → compute_ulp g h = 0) ∧
    compute_ulp 0x7F800000 0x7F800000 = 0 ∧
    compute_ulp 0xFF800000 0xFF800000 = 0 ∧
    compute_ulp 0x7F800000 0xFF800000 ≠ 0 := by
  refine ⟨?_, by decide, by decide, by decide⟩
  intro g h hg hh
  unfold compute_ulp
  rw [if_pos (by simp [hg, hh])]

/-- Claim C5, witness: the NaN clause evaluated at two NaNs with
different payloads and signs. -/
theorem claim_C5_witness : compute_ulp 0x7FC00001 0xFFFFFFFF = 0 :=
  claim_C5.1 0x7FC00001 0xFFFFFFFF (by decide) (by decide)

/-- Claim C6: for reference `+0.0` (bits `0x00000000`) and candidate
`-0.0` (bits `0x80000000`), the patterns differ and their sign bits
differ, the NaN and infinity branches of `compute_ulp` do not fire, the
IEEE value-equality branch does (`floatEqB` is true), the ULP distance is
0, and the relative error of the pair is `0.0`. -/
theorem claim_C6 :
    (0 : Nat) ≠ 0x80000000 ∧
    signBit 0 ≠ signBit 0x80000000 ∧
    (isNanB 0 && isNanB 0x80000000) = false ∧
    (isInfB 0 && isInfB 0x80000000) = false ∧
    floatEqB 0 0x80000000 = true ∧
    compute_ulp 0 0x80000000 = 0 ∧
    relError (bitsToVal 0) (bitsToVal 0x80000000) = .fin 0 := by
  refine ⟨by decide, by decide, by decide, by decide, by decide, by decide, ?_⟩
  rw [bitsToVal_pzero, bitsToVal_nzero]
  simp [relError, dEq, dFabs, dDiv, dSub, DVal.isNan, DVal.isInf]

/-- Claim C10: for every pair of 32-bit patterns, `compute_ulp` is at
most `0xFFFFFFFE`: the opposite-sign branch adds two magnitudes each
below `2 ^ 31`, and the same-sign branch subtracts two patterns lying in
the same sign half. -/
theorem claim_C10 (g h : Nat) (hg : g < 2 ^ 32) (hh : h < 2 ^ 32) :
    compute_ulp g h ≤ 0xFFFFFFFE := by
  unfold compute_ulp
  split
  · omega
  split
  · omega
  split
  · omega
  split
  · have h1 : mag g < 2 ^ 31 := Nat.mod_lt _ (by norm_num)
    have h2 : mag h < 2 ^ 31 := Nat.mod_lt _ (by norm_num)
    omega
  · rename_i hsne
    have hsame : signBit g = signBit h := by
      by_contra hc
      exact hsne (by simpa using hc)
    have hs2 : g / 2 ^ 31 % 2 = h / 2 ^ 31 % 2 := hsame
    split <;> omega

/-- Claim C10, witness: the bound evaluated at the two largest
magnitudes of opposite sign, where the distance is exactly
`0xFFFFFFFE`. -/
theorem claim_C10_witness : compute_ulp 0x7FFFFFFF 0xFFFFFFFF ≤ 0xFFFFFFFE :=
  claim_C10 0x7FFFFFFF 0xFFFFFFFF (by decide) (by decide)

/-! ### Claims about the relative error and the pass classification -/

/-- The relative-error formula as the claim words it, for comparison with
the code: the absolute difference divided by the (signed) reference
`g`, with the denominator forced to `1.0` when either operand is zero. -/
def relErrorClaimed (g h : DVal) : DVal :=
  if g.isNan && h.isNan then .fin 0
  else if g.isInf && h.isInf then .fin 0
  else dDiv (dFabs (dSub h g)) (if dEq g (.fin 0) || dEq h (.fin 0) then .fin 1 else g)

/-- Claim C3, counterexample: for reference `-1.0` and candidate `-0.5`
the code computes `fabs((h - g) / g) = 0.5`, while the claimed formula
`|h - g| / g` gives `-0.5`; the two disagree. -/
theorem claim_C3_counterexample :
    relError (bitsToVal 0xBF800000) (bitsToVal 0xBF000000) = .fin (1 / 2) ∧
    relErrorClaimed (bitsToVal 0xBF800000) (bitsToVal 0xBF000000) = .fin (-(1 / 2)) ∧
    relError (bitsToVal 0xBF800000) (bitsToVal 0xBF000000) ≠
      relErrorClaimed (bitsToVal 0xBF800000) (bitsToVal 0xBF000000) := by
  rw [bitsToVal_none, bitsToVal_nhalf]
  have h1 : relError (.fin (-1)) (.fin (-(1 / 2))) = .fin (1 / 2) := by
    simp [relError, dEq, dFabs, dDiv, dSub, DVal.isNan, DVal.isInf]
    norm_num
  have h2 : relErrorClaimed (.fin (-1)) (.fin (-(1 / 2))) = .fin (-(1 / 2)) := by
    simp [relErrorClaimed, dEq, dFabs, dDiv, dSub, DVal.isNan, DVal.isInf]
    have e1 : (-2⁻¹ + 1 : ℚ) = 2⁻¹ := by norm_num
    rw [e1, abs_of_nonneg (by norm_num : (0 : ℚ) ≤ 2⁻¹)]
    norm_num
  refine ⟨h1, h2, ?_⟩
  rw [h1, h2]
  simp
  norm_num

/-- Claim C3 (amended): the relative error is `0.0` when both operands
are NaN or both are infinite, and for finite operands it is the absolute
value of the quotient: `|h - g|` divided by `|g|`, the denominator forced
to `1` when either operand is zero. -/
theorem claim_C3_amended :
    (∀ g h : DVal, g.isNan = true → h.isNan = true → relError g h = .fin 0) ∧
    (∀ g h : DVal, g.isInf = true → h.isInf = true → relError g h = .fin 0) ∧
    (∀ q r : ℚ, relError (.fin q) (.fin r) =
      .fin (|r - q| / (if q = 0 ∨ r = 0 then 1 else |q|))) := by
  refine ⟨?_, ?_, ?_⟩
  · intro g h hg hh
    simp [relError, hg, hh]
  · intro g h hg hh
    cases g <;> cases h <;> simp_all [relError, DVal.isNan, DVal.isInf]
  · intro q r
    by_cases hq : q = 0
    · simp [relError, DVal.isNan, DVal.isInf, dSub, dEq, dDiv, dFabs, hq]
    by_cases hr : r = 0
    · simp [relError, DVal.isNan, DVal.isInf, dSub, dEq, dDiv, dFabs, hq, hr]
    · simp [relError, DVal.isNan, DVal.isInf, dSub, dEq, dDiv, dFabs, hq, hr, abs_div]

/-- Claim C3, witness: the NaN clause at a pair of NaNs and the finite
clause at `-1.0` and `-0.5`. -/
theorem claim_C3_witness :
    relError .nan .nan = .fin 0 ∧
    relError (.fin (-1)) (.fin (-(1 / 2))) = .fin (1 / 2) := by
  refine ⟨claim_C3_amended.1 .nan .nan rfl rfl, ?_⟩
  rw [claim_C3_amended.2.2 (-1) (-(1 / 2))]
  norm_num

/-- The pass criterion as the claim states it: both NaN, or both
infinite, or relative error strictly below the threshold and ULP distance
at most 2. -/
def passCond (gb hb : Nat) : Prop :=
  ((bitsToVal gb).isNan = true ∧ (bitsToVal hb).isNan = true) ∨
  ((bitsToVal gb).isInf = true ∧ (bitsToVal hb).isInf = true) ∨
  (dLt (relError (bitsToVal gb) (bitsToVal hb)) (.fin errThreshold) = true ∧
    compute_ulp gb hb ≤ 2)

/-- The pass test of the code agrees with the claimed criterion on every
sample. -/
theorem passB_iff (gb hb : Nat) : passB gb hb = true ↔ passCond gb hb := by
  simp only [passB, passCond]
  split
  · rename_i hc
    simp_all
  split
  · rename_i hc1 hc2
    simp_all
  · rename_i hc1 hc2
    rw [Bool.and_eq_true, decide_eq_true_iff]
    constructor
    · rintro ⟨e1, e2⟩
      exact Or.inr (Or.inr ⟨e1, e2⟩)
    · rintro (⟨e1, e2⟩ | ⟨e1, e2⟩ | ⟨e1, e2⟩)
      · exact absurd (by simp [e1, e2]) hc1
      · exact absurd (by simp [e1, e2]) hc2
      · exact ⟨e1, e2⟩

/-- Claim C4: a processed sample increments the pass count (and not the
fail count) exactly when it is both-NaN, both-infinite, or below both
thresholds; every other sample increments the fail count instead. -/
theorem claim_C4 (st : Stats) (gb hb : Nat) (hg : gb < 2 ^ 32) (hh : hb < 2 ^ 32) :
    ((stepStats st gb hb).pass = st.pass + 1 ∧ (stepStats st gb hb).fail = st.fail
      ↔ passCond gb hb) ∧
    ((stepStats st gb hb).pass = st.pass ∧ (stepStats st gb hb).fail = st.fail + 1
      ↔ ¬ passCond gb hb) := by
  rw [← passB_iff]
  cases hp : passB gb hb <;> simp [stepStats, hp]

/-- Claim C4, witness: the sample `(1.0, 1.0)` passes from the initial
accumulator state. -/
theorem claim_C4_witness :
    (stepStats stats0 0x3F800000 0x3F800000).pass = 1 ∧
    (stepStats stats0 0x3F800000 0x3F800000).fail = 0 := by
  have hre : relError (bitsToVal 0x3F800000) (bitsToVal 0x3F800000) = .fin 0 := by
    rw [bitsToVal_one]
    simp [relError, dEq, dFabs, dDiv, dSub, DVal.isNan, DVal.isInf]
  have hc : passCond 0x3F800000 0x3F800000 := by
    refine Or.inr (Or.inr ⟨?_, by decide⟩)
    rw [hre]
    simp [dLt, errThreshold]
  have h := (claim_C4 stats0 0x3F800000 0x3F800000 (by decide) (by decide)).1.mpr hc
  simpa [stats0] using h

/-! ### Propagation of a single NaN through the aggregation -/

/-- IEEE comparison with NaN on the right is false. -/
theorem dLt_nan_right (x : DVal) : dLt x .nan = false := by cases x <;> rfl

/-- Adding NaN on the right gives NaN. -/
theorem dAdd_nan_right (x : DVal) : dAdd x .nan = .nan := by cases x <;> rfl

/-- Adding to NaN gives NaN. -/
theorem dAdd_nan_left (x : DVal) : dAdd .nan x = .nan := by cases x <;> rfl

/-- When exactly one operand is NaN the relative-error formula produces
NaN. -/
theorem relError_one_nan (g h : DVal) (hx : g.isNan ≠ h.isNan) :
    relError g h = .nan := by
  cases g <;> cases h <;>
    simp_all [relError, DVal.isNan, DVal.isInf, dSub, dDiv, dFabs, dEq]

/-- Once the running error sum is NaN it stays NaN for the rest of the
run. -/
theorem runStats_total_err_nan (rest : List (Nat × Nat)) (s : Stats)
    (h : s.total_err = .nan) : (runStats s rest).total_err = .nan := by
  induction rest generalizing s with
  | nil => exact h
  | cons p t ih =>
      exact ih _ (by simp [runStats, stepStats, h, dAdd_nan_left])

/-- Claim C9: when exactly one of reference and candidate is NaN, the
sample's relative error is NaN, the sample is classified fail, the
running maximum error is unchanged, and the running error sum becomes and
remains NaN. -/
theorem claim_C9 (st : Stats) (gb hb : Nat)
    (hx : (bitsToVal gb).isNan ≠ (bitsToVal hb).isNan) :
    relError (bitsToVal gb) (bitsToVal hb) = .nan ∧
    (stepStats st gb hb).pass = st.pass ∧
    (stepStats st gb hb).fail = st.fail + 1 ∧
    (stepStats st gb hb).max_err = st.max_err ∧
    (stepStats st gb hb).total_err = .nan ∧
    ∀ rest : List (Nat × Nat),
      (runStats (stepStats st gb hb) rest).total_err = .nan := by
  have herr := relError_one_nan _ _ hx
  have hpB : passB gb hb = false := by
    simp only [passB]
    have h1 : ((bitsToVal gb).isNan && (bitsToVal hb).isNan) = false := by
      cases e1 : (bitsToVal gb).isNan <;> cases e2 : (bitsToVal hb).isNan <;> simp_all
    have h2 : ((bitsToVal gb).isInf && (bitsToVal hb).isInf) = false := by
      cases hg : bitsToVal gb <;> cases hh : bitsToVal hb <;>
        simp_all [DVal.isNan, DVal.isInf]
    rw [h1, h2]
    simp [herr, dLt]
  refine ⟨herr, ?_, ?_, ?_, ?_, ?_⟩
  · simp [stepStats, hpB]
  · simp [stepStats, hpB]
  · simp [stepStats, herr, dLt_nan_right]
  · simp [stepStats, herr, dAdd_nan_right]
  · intro rest
    exact runStats_total_err_nan rest _ (by simp [stepStats, herr, dAdd_nan_right])

/-- Claim C9, witness: a NaN reference against candidate `+0.0`, followed
by a clean sample, leaves the error sum NaN. -/
theorem claim_C9_witness :
    relError (bitsToVal 0x7FC00000) (bitsToVal 0) = .nan ∧
    (runStats (stepStats stats0 0x7FC00000 0)
      [(0x3F800000, 0x3F800000)]).total_err = .nan := by
  have h := claim_C9 stats0 0x7FC00000 0
    (by rw [bitsToVal_qnan, bitsToVal_pzero]; simp [DVal.isNan])
  exact ⟨h.1, h.2.2.2.2.2 [(0x3F800000, 0x3F800000)]⟩

/-! ### Driver-side facts that hold against any machine -/

section DriverLemmas

variable {σ : Type} (M : UUT σ) (inputs : List Nat) (s0 : σ)

/-- The `issued` counter after one loop body. -/
theorem driveStep_issued (d : DriveState σ) :
    (driveStep M inputs d).issued =
      if inValid M inputs d then d.issued + 1 else d.issued := rfl

/-- The input data lines after one loop body. -/
theorem driveStep_bits (d : DriveState σ) :
    (driveStep M inputs d).bits =
      if inValid M inputs d then inputs.getD d.issued 0 else d.bits := rfl

/-- The machine state after one loop body. -/
theorem driveStep_uut (d : DriveState σ) :
    (driveStep M inputs d).uut =
      M.step d.uut (inValid M inputs d) ((driveStep M inputs d).bits) := rfl

/-- The collected outputs after one loop body. -/
theorem driveStep_outs (d : DriveState σ) :
    (driveStep M inputs d).outs =
      if M.valid ((driveStep M inputs d).uut) then
        d.outs ++ [M.out ((driveStep M inputs d).uut)]
      else d.outs := rfl

/-- Unfolding of the trace by one iteration. -/
theorem dtrace_succ (n : Nat) :
    dtrace M inputs s0 (n + 1) = loopIter M inputs (dtrace M inputs s0 n) := rfl

/-- The driver never advances `issued` past the input count. -/
theorem dtrace_issued_le (n : Nat) :
    (dtrace M inputs s0 n).issued ≤ inputs.length := by
  induction n with
  | zero => simp [dtrace, dinit]
  | succ n ih =>
      rw [dtrace_succ]
      unfold loopIter
      split
      · rw [driveStep_issued]
        split
        · rename_i hv
          have hlt : (dtrace M inputs s0 n).issued < inputs.length := by
            have hv2 := hv
            simp only [inValid, Bool.and_eq_true, decide_eq_true_iff] at hv2
            exact hv2.1
          omega
        · exact ih
      · exact ih

/-- The driver presents at most one new input per cycle. -/
theorem dtrace_issued_succ_le (n : Nat) :
    (dtrace M inputs s0 (n + 1)).issued ≤ (dtrace M inputs s0 n).issued + 1 := by
  rw [dtrace_succ]
  unfold loopIter
  split
  · rw [driveStep_issued]
    split <;> omega
  · omega

/-- `issued` is nondecreasing along the trace. -/
theorem dtrace_issued_mono : Monotone fun n => (dtrace M inputs s0 n).issued := by
  apply monotone_nat_of_le_succ
  intro n
  rw [dtrace_succ]
  unfold loopIter
  split
  · rw [driveStep_issued]
    split <;> omega
  · omega

/-- The collected-output count is nondecreasing along the trace. -/
theorem dtrace_outs_mono : Monotone fun n => (dtrace M inputs s0 n).outs.length := by
  apply monotone_nat_of_le_succ
  intro n
  rw [dtrace_succ]
  unfold loopIter
  split
  · rw [driveStep_outs]
    split <;> simp
  · omega

/-- The loop never collects more outputs than requested: it exits at
equality. -/
theorem dtrace_outs_le (n : Nat) :
    (dtrace M inputs s0 n).outs.length ≤ inputs.length := by
  induction n with
  | zero => simp [dtrace, dinit]
  | succ n ih =>
      rw [dtrace_succ]
      unfold loopIter
      split
      · rename_i hact
        rw [driveStep_outs]
        split
        · simp
          omega
        · exact ih
      · exact ih

/-- Input-port and output-port transfer counters read off the machine
state agree with the driver's `issued` and `received` counters: the
driver asserts `valid` only when `ready` is high, so its `issued` counter
counts exactly the input-port transfers, and every output-port `valid`
cycle appends exactly one collected output. -/
theorem dtrace_counts (ac em : σ → Nat)
    (hac0 : ac s0 = 0) (hem0 : em s0 = 0)
    (hacS : ∀ s v b, ac (M.step s v b) = ac s + (if v && M.ready s then 1 else 0))
    (hemS : ∀ s v b, em (M.step s v b) = em s + (if M.valid (M.step s v b) then 1 else 0))
    (n : Nat) :
    ac ((dtrace M inputs s0 n).uut) = (dtrace M inputs s0 n).issued ∧
    em ((dtrace M inputs s0 n).uut) = (dtrace M inputs s0 n).outs.length := by
  induction n with
  | zero => exact ⟨hac0, hem0⟩
  | succ n ih =>
      rw [dtrace_succ]
      unfold loopIter
      split
      · have hsimp : (inValid M inputs (dtrace M inputs s0 n) &&
            M.ready (dtrace M inputs s0 n).uut) = inValid M inputs (dtrace M inputs s0 n) := by
          simp only [inValid]
          cases M.ready (dtrace M inputs s0 n).uut <;> simp
        constructor
        · rw [driveStep_uut, hacS, driveStep_issued, ih.1, hsimp]
          split <;> simp
        · rw [driveStep_outs, driveStep_uut, hemS, ih.2]
          split <;> simp
      · exact ih

end DriverLemmas

/-! ### Claims about the drive loop -/

/-- Claim C8: on every cycle the driver asserts input `valid` exactly
when the machine asserts input `ready` and inputs remain (so `valid` is
deasserted whenever `ready` is low or all inputs are issued), it issues
at most one new value per cycle, and `issued` never passes the input
count. -/
theorem claim_C8 (σ : Type) (M : UUT σ) (inputs : List Nat) (s0 : σ) (n : Nat) :
    (inValid M inputs (dtrace M inputs s0 n) = true ↔
      M.ready (dtrace M inputs s0 n).uut = true ∧
      (dtrace M inputs s0 n).issued < inputs.length) ∧
    (dtrace M inputs s0 (n + 1)).issued ≤ (dtrace M inputs s0 n).issued + 1 ∧
    (dtrace M inputs s0 n).issued ≤ inputs.length := by
  refine ⟨?_, dtrace_issued_succ_le M inputs s0 n, dtrace_issued_le M inputs s0 n⟩
  simp only [inValid, Bool.and_eq_true, decide_eq_true_iff]
  tauto

/-- Claim C7: for any machine that emits at most one output per accepted
input (expressed through transfer counters `ac`/`em` on its state),
`received ≤ issued ≤ N` holds at every iteration, and when the loop's
exit condition `received ≥ N` holds both counters equal `N`: the number
pushed into the input port equals the number received from the output
port equals the requested count. -/
theorem claim_C7 (σ : Type) (M : UUT σ) (inputs : List Nat) (s0 : σ)
    (ac em : σ → Nat)
    (hac0 : ac s0 = 0) (hem0 : em s0 = 0)
    (hacS : ∀ s v b, ac (M.step s v b) = ac s + (if v && M.ready s then 1 else 0))
    (hemS : ∀ s v b, em (M.step s v b) = em s + (if M.valid (M.step s v b) then 1 else 0))
    (hle : ∀ s, em s ≤ ac s)
    (n : Nat) :
    (dtrace M inputs s0 n).outs.length ≤ (dtrace M inputs s0 n).issued ∧
    (dtrace M inputs s0 n).issued ≤ inputs.length ∧
    (inputs.length ≤ (dtrace M inputs s0 n).outs.length →
      (dtrace M inputs s0 n).outs.length = inputs.length ∧
      (dtrace M inputs s0 n).issued = inputs.length) := by
  obtain ⟨h1, h2⟩ := dtrace_counts M inputs s0 ac em hac0 hem0 hacS hemS n
  have hri : (dtrace M inputs s0 n).outs.length ≤ (dtrace M inputs s0 n).issued := by
    rw [← h1, ← h2]
    exact hle _
  have hiN := dtrace_issued_le M inputs s0 n
  exact ⟨hri, hiN, fun hN =>
    ⟨le_antisymm (dtrace_outs_le M inputs s0 n) hN,
     le_antisymm hiN (le_trans hN hri)⟩⟩

/-! ### A concrete in-order stub machine for the witnesses -/

/-- Transition of a one-in-flight stub: when idle it accepts a value on a
`valid` cycle (recording it), holds it pending for one cycle, then
returns to idle. -/
def echoStep : List Nat × Option Nat → Bool → Nat → List Nat × Option Nat
  | (l, none), v, b => if v then (l ++ [b], some b) else (l, none)
  | (l, some _), _, _ => (l, none)

/-- The stub as a `UUT`: ready when idle, output `valid` during the one
pending cycle, output data `f` of the accepted value.  The accepted-value
list is carried in the state so that transfer counters and abstraction
functions can read it off. -/
def echoM (f : Nat → Nat) : UUT (List Nat × Option Nat) where
  ready s := s.2.isNone
  step s v b := echoStep s v b
  valid s := s.2.isSome
  out s := match s.2 with
    | some x => f x
    | none => 0

/-- The accepted count of the stub steps by one exactly on input-port
transfers. -/
theorem echo_ac (f : Nat → Nat) (s : List Nat × Option Nat) (v : Bool) (b : Nat) :
    ((echoM f).step s v b).1.length =
      s.1.length + (if v && (echoM f).ready s then 1 else 0) := by
  rcases s with ⟨l, p⟩
  cases p <;> cases v <;> simp [echoM, echoStep]

/-- The emitted count of the stub steps by one exactly on output `valid`
cycles. -/
theorem echo_em (f : Nat → Nat) (s : List Nat × Option Nat) (v : Bool) (b : Nat) :
    ((echoM f).step s v b).1.length =
      s.1.length + (if (echoM f).valid ((echoM f).step s v b) then 1 else 0) := by
  rcases s with ⟨l, p⟩
  cases p <;> cases v <;> simp [echoM, echoStep]

/-- Claim C7, witness: the count invariant evaluated against the stub on
a one-element input sequence after two iterations. -/
theorem claim_C7_witness :
    (dtrace (echoM id) [5] ([], none) 2).outs.length ≤
      (dtrace (echoM id) [5] ([], none) 2).issued ∧
    (dtrace (echoM id) [5] ([], none) 2).issued ≤ 1 ∧
    (1 ≤ (dtrace (echoM id) [5] ([], none) 2).outs.length →
      (dtrace (echoM id) [5] ([], none) 2).outs.length = 1 ∧
      (dtrace (echoM id) [5] ([], none) 2).issued = 1) :=
  claim_C7 (List Nat × Option Nat) (echoM id) [5] ([], none)
    (fun s => s.1.length) (fun s => s.1.length) rfl rfl
    (echo_ac id) (echo_em id) (fun s => le_refl s.1.length) 2

/-! ### List bookkeeping for the order-preservation proof -/

/-- Taking one more element appends the element at the cut. -/
theorem list_take_succ_getD (l : List Nat) (i : Nat) (h : i < l.length) :
    l.take (i + 1) = l.take i ++ [l.getD i 0] := by
  rw [List.take_succ, List.getElem?_eq_getElem h]
  simp [List.getD_eq_getElem?_getD, List.getElem?_eq_getElem h]

/-- Reading below the cut of a `take` reads the original list. -/
theorem list_getD_take (l : List Nat) (i k : Nat) (h : i < k) :
    (l.take k).getD i 0 = l.getD i 0 := by
  simp [List.getD_eq_getElem?_getD, List.getElem?_take_of_lt (l := l) h]

/-- Reading the appended element of a one-element append. -/
theorem list_getD_concat (l : List Nat) (a : Nat) :
    (l ++ [a]).getD l.length 0 = a := by
  simp [List.getD_eq_getElem?_getD, List.getElem?_concat_length]

/-! ### Machines that compute a function in submission order -/

/-- A machine that computes `f` in submission order with exactly one
output-valid cycle per accepted input, witnessed by abstraction functions
reading the accepted-input list `A` and the emitted count `E` off the
machine state: an input-port transfer appends the presented value to `A`;
an output-valid cycle advances `E` by exactly one, never past the
accepted count, and shows `f` of the `E`-th accepted value on the output
data lines; a non-valid cycle leaves `E` unchanged. -/
structure InOrderFun {σ : Type} (M : UUT σ) (f : Nat → Nat)
    (A : σ → List Nat) (E : σ → Nat) : Prop where
  acc_step : ∀ s v b, A (M.step s v b) = if v && M.ready s then A s ++ [b] else A s
  emit_pos : ∀ s v b, M.valid (M.step s v b) = true →
    E (M.step s v b) = E s + 1 ∧ E s < (A (M.step s v b)).length ∧
    M.out (M.step s v b) = f ((A (M.step s v b)).getD (E s) 0)
  emit_neg : ∀ s v b, M.valid (M.step s v b) = false → E (M.step s v b) = E s

/-- The simulation invariant of the drive loop against an in-order
machine: the machine has accepted exactly the first `issued` inputs, its
emitted count is the collected-output count, and the collected outputs
are `f` mapped over the inputs answered so far. -/
theorem dtrace_sim {σ : Type} (M : UUT σ) (inputs : List Nat) (s0 : σ)
    (f : Nat → Nat) (A : σ → List Nat) (E : σ → Nat)
    (h0A : A s0 = []) (h0E : E s0 = 0) (hM : InOrderFun M f A E) (n : Nat) :
    A ((dtrace M inputs s0 n).uut) = inputs.take (dtrace M inputs s0 n).issued ∧
    E ((dtrace M inputs s0 n).uut) = (dtrace M inputs s0 n).outs.length ∧
    (dtrace M inputs s0 n).outs =
      (inputs.take ((dtrace M inputs s0 n).outs.length)).map f := by
  induction n with
  | zero => simp [dtrace, dinit, h0A, h0E]
  | succ n ih =>
      obtain ⟨ihA, ihE, ihO⟩ := ih
      rw [dtrace_succ]
      unfold loopIter
      split
      case isFalse hact => exact ⟨ihA, ihE, ihO⟩
      case isTrue hact =>
        have hsimp : (inValid M inputs (dtrace M inputs s0 n) &&
            M.ready (dtrace M inputs s0 n).uut) =
            inValid M inputs (dtrace M inputs s0 n) := by
          simp only [inValid]
          cases M.ready (dtrace M inputs s0 n).uut <;> simp
        have hA2 : A ((driveStep M inputs (dtrace M inputs s0 n)).uut) =
            inputs.take ((driveStep M inputs (dtrace M inputs s0 n)).issued) := by
          rw [driveStep_uut, hM.acc_step, hsimp, driveStep_issued, driveStep_bits]
          cases hv : inValid M inputs (dtrace M inputs s0 n)
          · simp [ihA]
          · have hv2 := hv
            simp only [inValid, Bool.and_eq_true, decide_eq_true_iff] at hv2
            simp [ihA, list_take_succ_getD inputs _ hv2.1]
        cases hval : M.valid ((driveStep M inputs (dtrace M inputs s0 n)).uut)
        · have hvu := hval
          rw [driveStep_uut] at hvu
          have hE2 : E ((driveStep M inputs (dtrace M inputs s0 n)).uut) =
              E ((dtrace M inputs s0 n).uut) := by
            rw [driveStep_uut]
            exact hM.emit_neg _ _ _ hvu
          have hO2 : (driveStep M inputs (dtrace M inputs s0 n)).outs =
              (dtrace M inputs s0 n).outs := by
            rw [driveStep_outs, hval]
            simp
          exact ⟨hA2, by rw [hE2, hO2, ihE], by rw [hO2]; exact ihO⟩
        · have hvu := hval
          rw [driveStep_uut] at hvu
          obtain ⟨hE1, hEb, hout⟩ := hM.emit_pos _ _ _ hvu
          rw [← driveStep_uut] at hE1 hEb hout
          have hO2 : (driveStep M inputs (dtrace M inputs s0 n)).outs =
              (dtrace M inputs s0 n).outs ++
                [M.out ((driveStep M inputs (dtrace M inputs s0 n)).uut)] := by
            rw [driveStep_outs, hval]
            simp
          have hlen : (driveStep M inputs (dtrace M inputs s0 n)).outs.length =
              (dtrace M inputs s0 n).outs.length + 1 := by
            rw [hO2]
            simp
          have hEb2 : (dtrace M inputs s0 n).outs.length <
              (inputs.take ((driveStep M inputs (dtrace M inputs s0 n)).issued)).length := by
            rw [← hA2, ← ihE]
            exact hEb
          rw [List.length_take] at hEb2
          have hlt1 : (dtrace M inputs s0 n).outs.length <
              (driveStep M inputs (dtrace M inputs s0 n)).issued := by omega
          have hlt2 : (dtrace M inputs s0 n).outs.length < inputs.length := by omega
          refine ⟨hA2, by rw [hE1, ihE, hlen], ?_⟩
          rw [hlen, hO2, hout, hA2, ihE, list_getD_take inputs _ _ hlt1,
            list_take_succ_getD inputs _ hlt2, List.map_append, ihO]
          have hml : (List.map f (List.take ((dtrace M inputs s0 n).outs.length) inputs)).length =
              (dtrace M inputs s0 n).outs.length := by
            simp [List.length_take]
            omega
          rw [hml]
          simp

/-- Beta-reduced application of `issued` monotonicity. -/
theorem dtrace_issued_le_of_le {σ : Type} (M : UUT σ) (inputs : List Nat) (s0 : σ)
    {n m : Nat} (h : n ≤ m) :
    (dtrace M inputs s0 n).issued ≤ (dtrace M inputs s0 m).issued :=
  dtrace_issued_mono M inputs s0 h

/-- Beta-reduced application of collected-count monotonicity. -/
theorem dtrace_outs_le_of_le {σ : Type} (M : UUT σ) (inputs : List Nat) (s0 : σ)
    {n m : Nat} (h : n ≤ m) :
    (dtrace M inputs s0 n).outs.length ≤ (dtrace M inputs s0 m).outs.length :=
  dtrace_outs_mono M inputs s0 h

/-- Against an in-order machine the driver never collects more outputs
than it has issued inputs. -/
theorem dtrace_rec_le_iss {σ : Type} (M : UUT σ) (inputs : List Nat) (s0 : σ)
    (f : Nat → Nat) (A : σ → List Nat) (E : σ → Nat)
    (h0A : A s0 = []) (h0E : E s0 = 0) (hM : InOrderFun M f A E) (n : Nat) :
    (dtrace M inputs s0 n).outs.length ≤ (dtrace M inputs s0 n).issued := by
  have key : ∀ m, E ((dtrace M inputs s0 m).uut) ≤
      (A ((dtrace M inputs s0 m).uut)).length := by
    intro m
    induction m with
    | zero => simp [dtrace, dinit, h0A, h0E]
    | succ m ih =>
        rw [dtrace_succ]
        unfold loopIter
        split
        · cases hval : M.valid ((driveStep M inputs (dtrace M inputs s0 m)).uut)
          · have hvu := hval
            rw [driveStep_uut] at hvu
            rw [driveStep_uut, hM.emit_neg _ _ _ hvu, hM.acc_step]
            split
            · simp
              omega
            · exact ih
          · have hvu := hval
            rw [driveStep_uut] at hvu
            obtain ⟨hE1, hEb, -⟩ := hM.emit_pos _ _ _ hvu
            rw [← driveStep_uut] at hE1 hEb
            rw [driveStep_uut] at hE1 hEb ⊢
            omega
        · exact ih
  obtain ⟨hA2, hE2, -⟩ := dtrace_sim M inputs s0 f A E h0A h0E hM n
  have hk := key n
  rw [hA2, hE2, List.length_take] at hk
  omega

/-- Under the two liveness assumptions — the machine eventually raises
input `ready` while inputs are pending, and eventually raises output
`valid` while an accepted input is outstanding — the loop reaches
`received = N`.  The proof grows the measure `issued + received` (bounded
by `2 N`) using one of the liveness facts at each stage. -/
theorem drive_terminates {σ : Type} (M : UUT σ) (inputs : List Nat) (s0 : σ)
    (f : Nat → Nat) (A : σ → List Nat) (E : σ → Nat)
    (h0A : A s0 = []) (h0E : E s0 = 0) (hM : InOrderFun M f A E)
    (hlr : ∀ n, (dtrace M inputs s0 n).issued < inputs.length →
      ∃ m, n ≤ m ∧ M.ready ((dtrace M inputs s0 m).uut) = true)
    (hlv : ∀ n, (dtrace M inputs s0 n).outs.length < (dtrace M inputs s0 n).issued →
      ∃ m, n ≤ m ∧ M.valid ((dtrace M inputs s0 (m + 1)).uut) = true) :
    ∃ n, (dtrace M inputs s0 n).outs.length = inputs.length := by
  by_contra hno
  push_neg at hno
  have hlt : ∀ n, (dtrace M inputs s0 n).outs.length < inputs.length := fun n =>
    lt_of_le_of_ne (dtrace_outs_le M inputs s0 n) (hno n)
  have main : ∀ k, ∃ n,
      k ≤ (dtrace M inputs s0 n).issued + (dtrace M inputs s0 n).outs.length := by
    intro k
    induction k with
    | zero => exact ⟨0, Nat.zero_le _⟩
    | succ k ih =>
        obtain ⟨n, hk⟩ := ih
        by_cases hri : (dtrace M inputs s0 n).outs.length < (dtrace M inputs s0 n).issued
        · obtain ⟨m, hnm, hval⟩ := hlv n hri
          refine ⟨m + 1, ?_⟩
          have hact : (dtrace M inputs s0 m).outs.length < inputs.length := hlt m
          have hstep : dtrace M inputs s0 (m + 1) =
              driveStep M inputs (dtrace M inputs s0 m) := by
            rw [dtrace_succ]
            unfold loopIter
            rw [if_pos hact]
          have hgrow : (dtrace M inputs s0 (m + 1)).outs.length =
              (dtrace M inputs s0 m).outs.length + 1 := by
            rw [hstep] at hval ⊢
            rw [driveStep_outs, hval]
            simp
          have h1 := dtrace_issued_le_of_le M inputs s0 (show n ≤ m + 1 by omega)
          have h2 := dtrace_outs_le_of_le M inputs s0 hnm
          omega
        · have hle2 := dtrace_rec_le_iss M inputs s0 f A E h0A h0E hM n
          have hiss : (dtrace M inputs s0 n).issued < inputs.length := by
            have := hlt n
            omega
          obtain ⟨m, hnm, hrdy⟩ := hlr n hiss
          by_cases him : (dtrace M inputs s0 n).issued < (dtrace M inputs s0 m).issued
          · refine ⟨m, ?_⟩
            have h2 := dtrace_outs_le_of_le M inputs s0 hnm
            omega
          · have hmono := dtrace_issued_le_of_le M inputs s0 hnm
            have hmeq : (dtrace M inputs s0 m).issued = (dtrace M inputs s0 n).issued := by
              omega
            have hact : (dtrace M inputs s0 m).outs.length < inputs.length := hlt m
            have hvld : inValid M inputs (dtrace M inputs s0 m) = true := by
              simp only [inValid, Bool.and_eq_true, decide_eq_true_iff]
              exact ⟨by omega, hrdy⟩
            refine ⟨m + 1, ?_⟩
            have hstep : dtrace M inputs s0 (m + 1) =
                driveStep M inputs (dtrace M inputs s0 m) := by
              rw [dtrace_succ]
              unfold loopIter
              rw [if_pos hact]
            have hiss1 : (dtrace M inputs s0 (m + 1)).issued =
                (dtrace M inputs s0 m).issued + 1 := by
              rw [hstep, driveStep_issued, if_pos hvld]
            have h2 := dtrace_outs_le_of_le M inputs s0 (show n ≤ m + 1 by omega)
            omega
  obtain ⟨n, hk⟩ := main (2 * inputs.length + 1)
  have ha := dtrace_issued_le M inputs s0 n
  have hb := hlt n
  omega

/-- Claim C1: for any machine that computes `f` in submission order with
exactly one output-valid cycle per accepted input, and that eventually
raises input `ready` for each pending input and eventually raises output
`valid` for each outstanding accepted input, the drive loop reaches a
state with exactly `N` collected outputs, the `i`-th being the machine's
response `f` applied to the `i`-th input. -/
theorem claim_C1 (σ : Type) (M : UUT σ) (inputs : List Nat) (s0 : σ)
    (f : Nat → Nat) (A : σ → List Nat) (E : σ → Nat)
    (h0A : A s0 = []) (h0E : E s0 = 0) (hM : InOrderFun M f A E)
    (hlr : ∀ n, (dtrace M inputs s0 n).issued < inputs.length →
      ∃ m, n ≤ m ∧ M.ready ((dtrace M inputs s0 m).uut) = true)
    (hlv : ∀ n, (dtrace M inputs s0 n).outs.length < (dtrace M inputs s0 n).issued →
      ∃ m, n ≤ m ∧ M.valid ((dtrace M inputs s0 (m + 1)).uut) = true) :
    ∃ n, (dtrace M inputs s0 n).outs.length = inputs.length ∧
      (dtrace M inputs s0 n).outs = inputs.map f := by
  obtain ⟨n, hn⟩ := drive_terminates M inputs s0 f A E h0A h0E hM hlr hlv
  obtain ⟨-, -, hO⟩ := dtrace_sim M inputs s0 f A E h0A h0E hM n
  refine ⟨n, hn, ?_⟩
  rw [hO, hn, List.take_length]

/-- The stub machine is an in-order computer of `f`. -/
theorem echo_inOrder (f : Nat → Nat) :
    InOrderFun (echoM f) f (fun s => s.1) (fun s => s.1.length) := by
  refine ⟨?_, ?_, ?_⟩
  · rintro ⟨l, p⟩ v b
    cases p <;> cases v <;> simp [echoM, echoStep]
  · rintro ⟨l, p⟩ v b hval
    cases p with
    | none =>
        cases v
        · simp [echoM, echoStep] at hval
        · refine ⟨by simp [echoM, echoStep], by simp [echoM, echoStep], ?_⟩
          simp [echoM, echoStep, list_getD_concat]
    | some x => simp [echoM, echoStep] at hval
  · rintro ⟨l, p⟩ v b hval
    cases p with
    | none =>
        cases v
        · simp [echoM, echoStep]
        · simp [echoM, echoStep] at hval
    | some x => simp [echoM, echoStep]

/-- Against the stub the collected count always equals the issued count
(it answers within the acceptance cycle). -/
theorem echo_outs_eq_issued (f : Nat → Nat) (inputs : List Nat) (n : Nat) :
    (dtrace (echoM f) inputs ([], none) n).outs.length =
      (dtrace (echoM f) inputs ([], none) n).issued := by
  obtain ⟨h1, h2⟩ := dtrace_counts (echoM f) inputs ([], none)
    (fun s => s.1.length) (fun s => s.1.length) rfl rfl
    (echo_ac f) (echo_em f) n
  rw [← h1, ← h2]

/-- The stub raises `ready` within one cycle whenever inputs remain. -/
theorem echo_ready_live (f : Nat → Nat) (inputs : List Nat) (n : Nat)
    (hn : (dtrace (echoM f) inputs ([], none) n).issued < inputs.length) :
    ∃ m, n ≤ m ∧
      (echoM f).ready ((dtrace (echoM f) inputs ([], none) m).uut) = true := by
  cases hr : (echoM f).ready ((dtrace (echoM f) inputs ([], none) n).uut)
  · refine ⟨n + 1, by omega, ?_⟩
    have hact : (dtrace (echoM f) inputs ([], none) n).outs.length < inputs.length := by
      rw [echo_outs_eq_issued]
      exact hn
    rw [dtrace_succ]
    unfold loopIter
    rw [if_pos hact, driveStep_uut]
    rcases hu : (dtrace (echoM f) inputs ([], none) n).uut with ⟨l, p⟩
    rw [hu] at hr
    cases p with
    | none => simp [echoM] at hr
    | some x => simp [echoM, echoStep]
  · exact ⟨n, le_refl n, hr⟩

/-- The stub never has an outstanding unanswered input, so output
liveness holds vacuously. -/
theorem echo_valid_live (f : Nat → Nat) (inputs : List Nat) (n : Nat)
    (h : (dtrace (echoM f) inputs ([], none) n).outs.length <
      (dtrace (echoM f) inputs ([], none) n).issued) :
    ∃ m, n ≤ m ∧
      (echoM f).valid ((dtrace (echoM f) inputs ([], none) (m + 1)).uut) = true := by
  rw [echo_outs_eq_issued] at h
  exact absurd h (lt_irrefl _)

/-- Claim C1, witness: driving `[3, 4]` through the tagging stub
`f = (· + 100)` collects exactly `[103, 104]`. -/
theorem claim_C1_witness :
    ∃ n, (dtrace (echoM (fun b => b + 100)) [3, 4] ([], none) n).outs.length = 2 ∧
      (dtrace (echoM (fun b => b + 100)) [3, 4] ([], none) n).outs = [103, 104] := by
  have h := claim_C1 (List Nat × Option Nat) (echoM (fun b => b + 100)) [3, 4] ([], none)
    (fun b => b + 100) (fun s => s.1) (fun s => s.1.length) rfl rfl
    (echo_inOrder (fun b => b + 100))
    (echo_ready_live (fun b => b + 100) [3, 4])
    (echo_valid_live (fun b => b + 100) [3, 4])
  simpa using h

end TanhSim
